import Mathlib

/-!
Verification of the caption post-processing pipeline and batch orchestrator of
the gpt-img repository.

The embedded code:
* `applyNegativeFilters` from `src/lib/prompt-styles.ts` (phrase removal with
  the regex `\b<phrase>\b` applied globally and case-insensitively, followed by
  whitespace collapse, comma-pair collapse, leading/trailing comma-and-space
  stripping, and first-letter capitalization);
* `formatCaption` and the `POST` streaming loop from the API route
  (prefix/suffix trimming, lowercase-first, trailing-period strip,
  composition, newline and whitespace collapse, trim, and the optional
  word-boundary truncation);
* the SSE consumer loop of `ollama-form.tsx` (captions starting with
  `Error:` are treated as failures and stop the stream).

Strings are modelled on `List Char` (Lean `String` is a wrapper around
`List Char`).  JavaScript string functions are modelled character-wise; the
case maps follow the ASCII behaviour of `Char.toLower`/`Char.toUpper`, which
agrees with JavaScript on the ASCII inputs the pipeline manipulates.  The
regex `\s` class is modelled by `isJsSpace` (the JavaScript whitespace set),
`\b` by a word/non-word transition with the JavaScript word class
`[A-Za-z0-9_]`.  Regex global replacement is modelled as a left-to-right
non-overlapping scan over the original string, which is how the JavaScript
engine applies `replace` with the `g` flag.  Filter phrases reaching
`applyNegativeFilters` come only from the static preset catalog of
`prompt-styles.ts`, all of which are letter-and-space literals, so literal
matching of the phrase is a faithful model of the interpolated regex.
The numeric comparison `lastSpace > maxChars * 0.8` is modelled exactly by
`4 * maxChars < 5 * lastSpace`: for integer operands the double rounding in
`maxChars * 0.8` never crosses an integer, so the comparisons agree.
-/

namespace GptImg

/-- The JavaScript regex `\s` class (whitespace characters). -/
def isJsSpace (c : Char) : Bool :=
  c = ' ' || c = '\t' || c = '\n' || c = '\r' || c = '\x0b' || c = '\x0c' ||
  c = '\u00A0' || c = '\u1680' || (0x2000 ≤ c.toNat && c.toNat ≤ 0x200A) ||
  c = '\u2028' || c = '\u2029' || c = '\u202F' || c = '\u205F' ||
  c = '\u3000' || c = '\uFEFF'

/-- The JavaScript regex `\w` class: `[A-Za-z0-9_]`. -/
def isWordChar (c : Char) : Bool :=
  ('a' ≤ c && c ≤ 'z') || ('A' ≤ c && c ≤ 'Z') || ('0' ≤ c && c ≤ '9') || c = '_'

/-- Auxiliary scan for `replace(/\s+/g, ' ')`: the flag records whether the
scanner is inside a whitespace run whose single `' '` has been emitted. -/
def collapseWsAux : Bool → List Char → List Char
  | _, [] => []
  | inRun, c :: cs =>
    if isJsSpace c then
      if inRun then collapseWsAux true cs else ' ' :: collapseWsAux true cs
    else
      c :: collapseWsAux false cs

/-- `replace(/\s+/g, ' ')`: every whitespace run becomes one space. -/
def collapseWs (l : List Char) : List Char := collapseWsAux false l

/-- `replace(/\n/g, ' ')`. -/
def replaceNewlines (l : List Char) : List Char :=
  l.map fun c => if c = '\n' then ' ' else c

/-- JavaScript `String.prototype.trim` (`List.rdropWhile` drops the longest
suffix of whitespace). -/
def jsTrim (l : List Char) : List Char :=
  List.rdropWhile isJsSpace (l.dropWhile isJsSpace)

/-- Auxiliary scan for `replace(/,\s*,/g, ',')`.  The first argument holds the
whitespace read since a pending `','` (reversed), when the scanner sits inside
a potential match; matching is non-overlapping and left-to-right, as for a
global regex replacement. -/
def collapseCommasAux : Option (List Char) → List Char → List Char
  | none, [] => []
  | some pend, [] => ',' :: pend.reverse
  | none, c :: cs =>
    if c = ',' then collapseCommasAux (some []) cs
    else c :: collapseCommasAux none cs
  | some pend, c :: cs =>
    if c = ',' then ',' :: collapseCommasAux none cs
    else if isJsSpace c then collapseCommasAux (some (c :: pend)) cs
    else ',' :: (pend.reverse ++ c :: collapseCommasAux none cs)

/-- `replace(/,\s*,/g, ',')`. -/
def collapseCommas (l : List Char) : List Char := collapseCommasAux none l

/-- `caption.charAt(0).toLowerCase() + caption.slice(1)`. -/
def lowerFirst : List Char → List Char
  | [] => []
  | c :: cs => c.toLower :: cs

/-- `cleaned.charAt(0).toUpperCase() + cleaned.slice(1)`. -/
def upperFirst : List Char → List Char
  | [] => []
  | c :: cs => c.toUpper :: cs

/-- `replace(/\.$/, '')`: remove one final period. -/
def stripTrailingPeriod (l : List Char) : List Char :=
  if l.getLast? = some '.' then l.dropLast else l

/-- `replace(/,$/, '')`: remove one final comma. -/
def stripTrailingComma (l : List Char) : List Char :=
  if l.getLast? = some ',' then l.dropLast else l

/-- `replace(/^,/, '')`: remove one leading comma. -/
def stripLeadingComma : List Char → List Char
  | ',' :: cs => cs
  | l => l

/-- Index of the last occurrence of `t`, as for `lastIndexOf`. -/
def lastIdxOf (t : Char) : List Char → Option Nat
  | [] => none
  | c :: cs =>
    match lastIdxOf t cs with
    | some i => some (i + 1)
    | none => if c = t then some 0 else none

/-- Word/non-word test of the character left of a position (`none` at the
start of the string counts as non-word). -/
def isWordOpt : Option Char → Bool
  | none => false
  | some c => isWordChar c

/-- Case-insensitive test that the first list is a prefix of the second. -/
def matchesCI : List Char → List Char → Bool
  | [], _ => true
  | _ :: _, [] => false
  | p :: ps, c :: cs => (p.toLower = c.toLower) && matchesCI ps cs

/-- The character of the text lying under the last character of the phrase
when a match starts at `c :: cs`. -/
def lastMatchedChar (pl : List Char) (c : Char) (cs : List Char) : Char :=
  (c :: cs).getD (pl.length - 1) c

/-- Does `/\b<phrase>\b/i` match at the position `c :: cs`, whose left
neighbour in the original string is `prev`? -/
def matchAt (pl : List Char) (prev : Option Char) (c : Char) (cs : List Char) : Bool :=
  !pl.isEmpty
  && (isWordOpt prev != isWordChar c)
  && matchesCI pl (c :: cs)
  && (let lc := lastMatchedChar pl c cs
      match cs.drop (pl.length - 1) with
      | [] => isWordChar lc
      | d :: _ => isWordChar lc != isWordChar d)

/-- Scan of `replace(/\b<phrase>\b/gi, '')`: matched spans are dropped and the
scan resumes after them; `fuel` only serves structural termination and is
instantiated with the text length, which one scan never exceeds. -/
def removePhraseAux (pl : List Char) : Nat → Option Char → List Char → List Char
  | _, _, [] => []
  | 0, _, l => l
  | fuel + 1, prev, c :: cs =>
    if matchAt pl prev c cs then
      removePhraseAux pl fuel (some (lastMatchedChar pl c cs)) (cs.drop (pl.length - 1))
    else
      c :: removePhraseAux pl fuel (some c) cs

/-- `cleaned.replace(new RegExp('\\b' + filter + '\\b', 'gi'), '')` for a
literal filter phrase. -/
def removePhrase (pl l : List Char) : List Char :=
  removePhraseAux pl l.length none l

/-- Does `/\b<phrase>\b/i` match anywhere in the text (with `prev` the
character left of the first position)? -/
def hasPhraseOcc (pl : List Char) : Option Char → List Char → Bool
  | _, [] => false
  | prev, c :: cs => matchAt pl prev c cs || hasPhraseOcc pl (some c) cs

/-- The `for (const filter of filters)` loop of `applyNegativeFilters`:
each phrase is removed globally and the result trimmed. -/
def removeFilters (filters : List (List Char)) (l : List Char) : List Char :=
  filters.foldl (fun acc f => jsTrim (removePhrase f acc)) l

/-- Core of `applyNegativeFilters` from `src/lib/prompt-styles.ts`. -/
def applyNegativeFiltersCore (caption : List Char) (filters : List (List Char)) :
    List Char :=
  let cleaned := removeFilters filters caption
  let cleaned := collapseWs cleaned
  let cleaned := collapseCommas cleaned
  let cleaned := cleaned.dropWhile fun c => c = ',' || isJsSpace c
  let cleaned := List.rdropWhile (fun c => c = ',' || isJsSpace c) cleaned
  upperFirst cleaned

/-- `applyNegativeFilters` on `String`. -/
def applyNegativeFilters (caption : String) (filters : List String) : String :=
  ⟨applyNegativeFiltersCore caption.data (filters.map String.data)⟩

/-- The truncation block of `formatCaption`: hard cut to `maxChars`, trim,
then cut back to the last space when `lastSpace > maxChars * 0.8`. -/
def truncateCaption (maxChars : Nat) (l : List Char) : List Char :=
  let cut := jsTrim (l.take maxChars)
  match lastIdxOf ' ' cut with
  | none => cut
  | some i => if 4 * maxChars < 5 * i then jsTrim (cut.take i) else cut

/-- The composition part of `formatCaption`: trim the prefix and suffix
(removing an adjoining comma), lowercase the first caption character, strip
one trailing period, attach the separators, then replace newlines, collapse
whitespace and trim. -/
def composeCaption (caption pfx sfx : List Char) : List Char :=
  let tp := stripTrailingComma (jsTrim pfx)
  let ts := stripLeadingComma (jsTrim sfx)
  let cap := stripTrailingPeriod (lowerFirst caption)
  let pp := if tp.isEmpty then [] else tp ++ [',', ' ']
  let sp := if ts.isEmpty then [] else ',' :: ' ' :: ts
  jsTrim (collapseWs (replaceNewlines (pp ++ cap ++ sp)))

/-- Core of `formatCaption` from the API route.  The `maxChars` guard mirrors
`if (maxChars && formatted.length > maxChars)` (zero is falsy). -/
def formatCaptionCore (caption pfx sfx : List Char) (maxChars : Option Nat) :
    List Char :=
  let formatted := composeCaption caption pfx sfx
  match maxChars with
  | some m => if 0 < m ∧ m < formatted.length then truncateCaption m formatted else formatted
  | none => formatted

/-- `formatCaption` on `String`. -/
def formatCaption (caption pfxS sfxS : String) (maxChars : Option Nat) : String :=
  ⟨formatCaptionCore caption.data pfxS.data sfxS.data maxChars⟩

/-- The post-processing parameters the route reads from the form data. -/
structure PostProcessConfig where
  pfx : String := ""
  sfx : String := ""
  maxChars : Option Nat := none
  negativeFilters : List String := []

/-- One request: an identifying name and an opaque image payload. -/
structure CaptionRequest where
  name : String
  payload : String := ""

/-- The caption post-processing applied per item by the `POST` loop:
negative filters run only when the filter list is non-empty, then
`formatCaption`. -/
def process (raw : String) (cfg : PostProcessConfig) : String :=
  let caption :=
    if cfg.negativeFilters.isEmpty then raw
    else applyNegativeFilters raw cfg.negativeFilters
  formatCaption caption cfg.pfx cfg.sfx cfg.maxChars

/-- `path.parse(name).name`: the basename with the directory part and the
final extension removed (a dot at position 0 of the basename does not start
an extension). -/
def basenameCore (l : List Char) : List Char :=
  let base := match lastIdxOf '/' l with
    | some i => l.drop (i + 1)
    | none => l
  match lastIdxOf '.' base with
  | some 0 => base
  | some k => base.take k
  | none => base

/-- The output filename of a request: basename plus `.txt`, computed the same
way in the success and in the failure branch of the loop. -/
def filenameOf (r : CaptionRequest) : String :=
  ⟨basenameCore r.name.data ++ ['.', 't', 'x', 't']⟩

/-- The streaming loop of `POST`: one `(filename, caption)` pair per request
in order; the `catch` branch emits `Error: ` followed by the message and the
loop continues. -/
def runBatch (cfg : PostProcessConfig) (gen : CaptionRequest → Except String String) :
    List CaptionRequest → List (String × String)
  | [] => []
  | r :: rs =>
    (match gen r with
      | Except.ok text => (filenameOf r, process text cfg)
      | Except.error e => (filenameOf r, "Error: " ++ e)) :: runBatch cfg gen rs

/-- The SSE consumer of `ollama-form.tsx`: pairs are accepted in order until
a caption starting with `Error:` arrives, which stops the loop and surfaces
`caption.substring(7)` as the error. -/
def consumeCaptions : List (String × String) → List (String × String) × Option String
  | [] => ([], none)
  | (fn, cap) :: rest =>
    if "Error:".data.isPrefixOf cap.data then ([], some ⟨cap.data.drop 7⟩)
    else
      let (l, e) := consumeCaptions rest
      ((fn, cap) :: l, e)

/-- Does `pat` occur as a contiguous subsequence of `l`? -/
def containsSeq (pat : List Char) : List Char → Bool
  | [] => pat.isEmpty
  | c :: cs => pat.isPrefixOf (c :: cs) || containsSeq pat cs

/-- The formatting pipeline with no filters, prefix, suffix or limit:
lowercase the first character, strip one trailing period, turn newlines into
spaces, collapse whitespace runs and trim. -/
def plainFormat (raw : String) : String :=
  ⟨jsTrim (collapseWs (replaceNewlines (stripTrailingPeriod (lowerFirst raw.data))))⟩

/-- All whitespace characters of `l` are plain spaces. -/
def spaceNormal (l : List Char) : Prop :=
  ∀ c ∈ l, isJsSpace c = true → c = ' '

/-- No two adjacent characters of `l` are both spaces. -/
def noDoubleSpace (l : List Char) : Prop :=
  List.Chain' (fun a b => ¬(a = ' ' ∧ b = ' ')) l

/-- A 53-character input whose 50-character hard cut has its last space at
index 42 (strictly above 80 percent of 50). -/
def wordCutInput : String :=
  ⟨List.replicate 42 'a' ++ ' ' :: List.replicate 7 'b' ++ ['c', 'c', 'c']⟩

/-- A 53-character input whose 50-character hard cut has its last space at
index 40 (exactly 80 percent of 50). -/
def hardCutInput : String :=
  ⟨List.replicate 40 'a' ++ ' ' :: List.replicate 9 'b' ++ ['c', 'c', 'c']⟩

/-- Five requests for the batch-order scenario. -/
def reqs5 : List CaptionRequest :=
  [⟨"img1.png", ""⟩, ⟨"img2.png", ""⟩, ⟨"img3.png", ""⟩, ⟨"img4.png", ""⟩, ⟨"img5.png", ""⟩]

/-- A generator failing exactly on the third request. -/
def gen5 : CaptionRequest → Except String String :=
  fun r => if r.name = "img3.png" then Except.error "boom" else Except.ok "a cat"

/-! ### Character-level helper lemmas -/

theorem char_toNat_ofNat (n : Nat) (h : n < 55296) : (Char.ofNat n).toNat = n := by
  have hv : n.isValidChar := Or.inl h
  simp [Char.ofNat, hv, Char.ofNatAux, Char.toNat, UInt32.toNat]

theorem toUpper_idem (c : Char) : c.toUpper.toUpper = c.toUpper := by
  simp only [Char.toUpper]
  by_cases h : Char.toNat c ≥ 97 ∧ Char.toNat c ≤ 122
  · rw [if_pos h]
    have h2 : (Char.ofNat (Char.toNat c - 32)).toNat = Char.toNat c - 32 :=
      char_toNat_ofNat _ (by omega)
    rw [if_neg (by rw [h2]; omega)]
  · rw [if_neg h, if_neg h]

theorem toLower_eq_comma {c : Char} (h : c.toLower = ',') : c = ',' := by
  by_cases hc : Char.toNat c ≥ 65 ∧ Char.toNat c ≤ 90
  · exfalso
    have h2 : (Char.ofNat (Char.toNat c + 32)).toNat = Char.toNat c + 32 :=
      char_toNat_ofNat _ (by omega)
    simp only [Char.toLower] at h
    rw [if_pos hc] at h
    have h3 : (Char.ofNat (Char.toNat c + 32)).toNat = (',' : Char).toNat := by rw [h]
    rw [h2] at h3
    have h44 : (',' : Char).toNat = 44 := by decide
    omega
  · simp only [Char.toLower] at h
    rw [if_neg hc] at h
    exact h

theorem upperFirst_head_fixed (l : List Char) :
    (upperFirst l).head?.map Char.toUpper = (upperFirst l).head? := by
  cases l with
  | nil => rfl
  | cons c cs => simp [upperFirst, toUpper_idem]

/-! ### Whitespace-normalization invariants -/

theorem spaceNormal_mono {l₁ l₂ : List Char} (h : l₁ ⊆ l₂) (h₂ : spaceNormal l₂) :
    spaceNormal l₁ :=
  fun c hc hs => h₂ c (h hc) hs

theorem spaceNormal_collapseWsAux (b : Bool) (l : List Char) :
    spaceNormal (collapseWsAux b l) := by
  induction l generalizing b with
  | nil => intro c hc _; simp [collapseWsAux] at hc
  | cons a t ih =>
    intro c hc hs
    by_cases ha : isJsSpace a = true
    · cases b with
      | false =>
        simp only [collapseWsAux, ha, if_true] at hc
        rcases List.mem_cons.mp hc with h | h
        · exact h
        · exact ih true c h hs
      | true =>
        simp only [collapseWsAux, ha, if_true] at hc
        exact ih true c hc hs
    · have ha' : isJsSpace a = false := by simpa using ha
      simp [collapseWsAux, ha'] at hc
      rcases hc with h | h
      · exact absurd hs (by simp [h, ha'])
      · exact ih false c h hs

theorem collapseWsAux_true_head (l : List Char) :
    ∀ x ∈ (collapseWsAux true l).head?, x ≠ ' ' := by
  induction l with
  | nil => intro x hx; simp [collapseWsAux] at hx
  | cons a t ih =>
    intro x hx
    by_cases ha : isJsSpace a = true
    · simp only [collapseWsAux, ha, if_true] at hx
      exact ih x hx
    · have ha' : isJsSpace a = false := by simpa using ha
      simp [collapseWsAux, ha'] at hx
      intro hcon
      rw [hx, hcon] at ha'
      exact absurd ha' (by decide)

theorem noDoubleSpace_collapseWsAux (b : Bool) (l : List Char) :
    noDoubleSpace (collapseWsAux b l) := by
  induction l generalizing b with
  | nil => simp [collapseWsAux, noDoubleSpace]
  | cons a t ih =>
    by_cases ha : isJsSpace a = true
    · cases b with
      | true =>
        have hred : collapseWsAux true (a :: t) = collapseWsAux true t := by
          simp [collapseWsAux, ha]
        unfold noDoubleSpace
        rw [hred]
        exact ih true
      | false =>
        have hred : collapseWsAux false (a :: t) = ' ' :: collapseWsAux true t := by
          simp [collapseWsAux, ha]
        unfold noDoubleSpace
        rw [hred, List.chain'_cons']
        exact ⟨fun y hy hcon => (collapseWsAux_true_head t y hy) hcon.2, ih true⟩
    · have ha' : isJsSpace a = false := by simpa using ha
      have hred : collapseWsAux b (a :: t) = a :: collapseWsAux false t := by
        simp [collapseWsAux, ha']
      unfold noDoubleSpace
      rw [hred, List.chain'_cons']
      refine ⟨fun y hy hcon => ?_, ih false⟩
      rw [hcon.1] at ha'
      exact absurd ha' (by decide)

theorem noDoubleSpace_within {l₁ l₂ : List Char} (h : l₁ <:+: l₂)
    (h₂ : noDoubleSpace l₂) : noDoubleSpace l₁ :=
  List.Chain'.infix h₂ h

theorem jsTrim_within (l : List Char) : jsTrim l <:+: l := by
  unfold jsTrim
  exact ((List.rdropWhile_prefix _ _).isInfix).trans ((List.dropWhile_suffix _).isInfix)

theorem truncateCaption_within (m : Nat) (l : List Char) :
    truncateCaption m l <:+: l := by
  unfold truncateCaption
  have hcut : jsTrim (l.take m) <:+: l :=
    (jsTrim_within _).trans (List.take_prefix m l).isInfix
  cases h : lastIdxOf ' ' (jsTrim (l.take m)) with
  | none => simpa [h] using hcut
  | some i =>
    simp only [h]
    by_cases hc : 4 * m < 5 * i
    · rw [if_pos hc]
      exact ((jsTrim_within _).trans (List.take_prefix i _).isInfix).trans hcut
    · rw [if_neg hc]
      exact hcut

theorem jsTrim_length_le (l : List Char) : (jsTrim l).length ≤ l.length :=
  (jsTrim_within l).sublist.length_le

theorem lastIdxOf_lt_length {t : Char} : ∀ {l : List Char} {i : Nat},
    lastIdxOf t l = some i → i < l.length := by
  intro l
  induction l with
  | nil => intro i h; simp [lastIdxOf] at h
  | cons c cs ih =>
    intro i h
    simp only [lastIdxOf] at h
    cases hrec : lastIdxOf t cs with
    | some j =>
      rw [hrec] at h
      cases h
      have := ih hrec
      simp only [List.length_cons]
      omega
    | none =>
      rw [hrec] at h
      by_cases hc : c = t
      · rw [if_pos hc] at h
        cases h
        simp
      · rw [if_neg hc] at h
        exact absurd h (by simp)

theorem truncateCaption_length_le (m : Nat) (l : List Char) :
    (truncateCaption m l).length ≤ m := by
  unfold truncateCaption
  have hcut : (jsTrim (l.take m)).length ≤ m :=
    le_trans (jsTrim_length_le _) (by simpa using List.length_take_le m l)
  cases h : lastIdxOf ' ' (jsTrim (l.take m)) with
  | none => simpa [h] using hcut
  | some i =>
    simp only [h]
    have hi : i < (jsTrim (l.take m)).length := lastIdxOf_lt_length h
    by_cases hc : 4 * m < 5 * i
    · rw [if_pos hc]
      calc (jsTrim ((jsTrim (l.take m)).take i)).length
          ≤ ((jsTrim (l.take m)).take i).length := jsTrim_length_le _
        _ ≤ i := by simpa using List.length_take_le i _
        _ ≤ m := by omega
    · rw [if_neg hc]
      exact hcut

/-! ### Pipeline-level invariants -/

theorem jsTrim_collapse_invariants (x : List Char) :
    spaceNormal (jsTrim (collapseWs x)) ∧ noDoubleSpace (jsTrim (collapseWs x)) :=
  ⟨spaceNormal_mono (jsTrim_within _).subset (spaceNormal_collapseWsAux false x),
   noDoubleSpace_within (jsTrim_within _) (noDoubleSpace_collapseWsAux false x)⟩

theorem composeCaption_invariants (caption pfx sfx : List Char) :
    spaceNormal (composeCaption caption pfx sfx) ∧
    noDoubleSpace (composeCaption caption pfx sfx) :=
  jsTrim_collapse_invariants _

theorem truncateCaption_invariants (m : Nat) {x : List Char} (h1 : spaceNormal x)
    (h2 : noDoubleSpace x) :
    spaceNormal (truncateCaption m x) ∧ noDoubleSpace (truncateCaption m x) :=
  ⟨spaceNormal_mono (truncateCaption_within m x).subset h1,
   noDoubleSpace_within (truncateCaption_within m x) h2⟩

theorem formatCaptionCore_invariants (caption pfx sfx : List Char) (mc : Option Nat) :
    spaceNormal (formatCaptionCore caption pfx sfx mc) ∧
    noDoubleSpace (formatCaptionCore caption pfx sfx mc) := by
  cases mc with
  | none => exact composeCaption_invariants caption pfx sfx
  | some m =>
    have hb := composeCaption_invariants caption pfx sfx
    have hred : formatCaptionCore caption pfx sfx (some m) =
        if 0 < m ∧ m < (composeCaption caption pfx sfx).length then
          truncateCaption m (composeCaption caption pfx sfx)
        else composeCaption caption pfx sfx := rfl
    rw [hred]
    by_cases hc : 0 < m ∧ m < (composeCaption caption pfx sfx).length
    · rw [if_pos hc]
      exact truncateCaption_invariants m hb.1 hb.2
    · rw [if_neg hc]
      exact hb

theorem process_invariants (raw : String) (cfg : PostProcessConfig) :
    spaceNormal (process raw cfg).data ∧ noDoubleSpace (process raw cfg).data :=
  formatCaptionCore_invariants _ _ _ _

theorem newline_not_mem {l : List Char} (h : spaceNormal l) : '\n' ∉ l := by
  intro hm
  have := h '\n' hm (by decide)
  exact absurd this (by decide)

theorem process_length_le (raw : String) (cfg : PostProcessConfig) (m : Nat)
    (h : cfg.maxChars = some m) (hm : 0 < m) : (process raw cfg).data.length ≤ m := by
  show (formatCaptionCore _ _ _ cfg.maxChars).length ≤ m
  rw [h]
  by_cases hc : 0 < m ∧ m <
      (composeCaption (if cfg.negativeFilters.isEmpty then raw
        else applyNegativeFilters raw cfg.negativeFilters).data cfg.pfx.data cfg.sfx.data).length
  · show (if 0 < m ∧ m < _ then truncateCaption m _ else _).length ≤ m
    rw [if_pos hc]
    exact truncateCaption_length_le m _
  · show (if 0 < m ∧ m < _ then truncateCaption m _ else _).length ≤ m
    rw [if_neg hc]
    have hlt : ¬ m < (composeCaption (if cfg.negativeFilters.isEmpty then raw
        else applyNegativeFilters raw cfg.negativeFilters).data cfg.pfx.data cfg.sfx.data).length :=
      fun hl => hc ⟨hm, hl⟩
    omega

/-! ### Reduction of the pipeline under the empty configuration -/

theorem process_plain (raw : String) :
    process raw ⟨"", "", none, []⟩ = plainFormat raw := by
  show (⟨jsTrim (collapseWs (replaceNewlines
      ((stripTrailingPeriod (lowerFirst raw.data)) ++ [])))⟩ : String) = _
  rw [List.append_nil]
  rfl

/-! ### Comma-count preservation -/

theorem count_comma_dropWhile (p : Char → Bool) (hp : p ',' = false) :
    ∀ l : List Char, (l.dropWhile p).count ',' = l.count ',' := by
  intro l
  induction l with
  | nil => rfl
  | cons c cs ih =>
    by_cases h : p c = true
    · have hc : c ≠ ',' := fun e => by rw [e, hp] at h; exact Bool.false_ne_true h
      simp [List.dropWhile_cons, h, ih, List.count_cons, hc]
    · have h' : p c = false := by simpa using h
      simp [List.dropWhile_cons, h']

theorem count_comma_rdropWhile (p : Char → Bool) (hp : p ',' = false) (l : List Char) :
    (List.rdropWhile p l).count ',' = l.count ',' := by
  unfold List.rdropWhile
  rw [List.count_reverse, count_comma_dropWhile p hp, List.count_reverse]

theorem count_comma_jsTrim (l : List Char) : (jsTrim l).count ',' = l.count ',' := by
  unfold jsTrim
  rw [count_comma_rdropWhile _ (by decide), count_comma_dropWhile _ (by decide)]

theorem count_comma_collapseWsAux (b : Bool) (l : List Char) :
    (collapseWsAux b l).count ',' = l.count ',' := by
  induction l generalizing b with
  | nil => rfl
  | cons a t ih =>
    by_cases ha : isJsSpace a = true
    · have ha2 : a ≠ ',' := fun e => by rw [e] at ha; exact absurd ha (by decide)
      cases b with
      | true => simp [collapseWsAux, ha, ih, List.count_cons, ha2]
      | false => simp [collapseWsAux, ha, ih, List.count_cons, ha2]
    · have ha' : isJsSpace a = false := by simpa using ha
      simp [collapseWsAux, ha', ih, List.count_cons]

theorem count_comma_replaceNewlines (l : List Char) :
    (replaceNewlines l).count ',' = l.count ',' := by
  induction l with
  | nil => rfl
  | cons c cs ih =>
    by_cases hc : c = '\n'
    · simp [replaceNewlines, hc, List.count_cons] at ih ⊢
      simpa [replaceNewlines] using ih
    · simp [replaceNewlines, hc, List.count_cons] at ih ⊢
      simpa [replaceNewlines, ih] using rfl

theorem count_comma_stripTrailingPeriod (l : List Char) :
    (stripTrailingPeriod l).count ',' = l.count ',' := by
  by_cases h : l.getLast? = some '.'
  · have hne : l ≠ [] := by intro e; rw [e] at h; simp at h
    have hg : l.getLast hne = '.' := by
      have := List.getLast?_eq_getLast l hne
      rw [this] at h
      exact (Option.some_inj.mp h).symm ▸ rfl
    have hsplit : l.dropLast ++ [l.getLast hne] = l := List.dropLast_append_getLast hne
    simp only [stripTrailingPeriod, h, if_pos]
    conv_rhs => rw [← hsplit]
    rw [List.count_append, hg]
    simp
  · simp [stripTrailingPeriod, h]

theorem count_comma_lowerFirst (l : List Char) :
    (lowerFirst l).count ',' = l.count ',' := by
  cases l with
  | nil => rfl
  | cons c cs =>
    by_cases hc : c = ','
    · simp [lowerFirst, hc, List.count_cons]
    · have h2 : c.toLower ≠ ',' := fun h => hc (toLower_eq_comma h)
      simp [lowerFirst, List.count_cons, hc, h2]

/-! ### Batch loop lemmas -/

theorem runBatch_length (cfg : PostProcessConfig) (gen : CaptionRequest → Except String String) :
    ∀ reqs : List CaptionRequest, (runBatch cfg gen reqs).length = reqs.length := by
  intro reqs
  induction reqs with
  | nil => rfl
  | cons r rs ih =>
    show ((match gen r with
      | Except.ok text => (filenameOf r, process text cfg)
      | Except.error e => (filenameOf r, "Error: " ++ e)) :: runBatch cfg gen rs).length = _
    cases gen r <;> simp [ih]

theorem runBatch_getD (cfg : PostProcessConfig) (gen : CaptionRequest → Except String String) :
    ∀ (reqs : List CaptionRequest) (i : Nat), i < reqs.length →
      (runBatch cfg gen reqs).getD i ("", "") =
        (filenameOf (reqs.getD i ⟨"", ""⟩),
          match gen (reqs.getD i ⟨"", ""⟩) with
          | Except.ok text => process text cfg
          | Except.error e => "Error: " ++ e) := by
  intro reqs
  induction reqs with
  | nil => intro i h; simp at h
  | cons r rs ih =>
    intro i h
    cases i with
    | zero => cases hg : gen r <;> simp [runBatch, hg]
    | succ j =>
      have hj : j < rs.length := by simpa using h
      have step : (runBatch cfg gen (r :: rs)).getD (j + 1) ("", "") =
          (runBatch cfg gen rs).getD j ("", "") := by
        cases hg : gen r <;> simp [runBatch, hg]
      rw [step, ih j hj]
      simp

/-! ### Phrase removal acts only at matches -/

theorem removePhraseAux_eq_of_no_occ (pl : List Char) :
    ∀ (l : List Char) (fuel : Nat) (prev : Option Char),
      hasPhraseOcc pl prev l = false → removePhraseAux pl fuel prev l = l := by
  intro l
  induction l with
  | nil => intro fuel prev _; cases fuel <;> rfl
  | cons c cs ih =>
    intro fuel prev h
    have hm : matchAt pl prev c cs = false ∧ hasPhraseOcc pl (some c) cs = false := by
      simpa [hasPhraseOcc] using h
    cases fuel with
    | zero => rfl
    | succ f => simp [removePhraseAux, hm.1, ih f (some c) hm.2]

theorem removePhrase_eq_of_no_occ (pl l : List Char)
    (h : hasPhraseOcc pl none l = false) : removePhrase pl l = l :=
  removePhraseAux_eq_of_no_occ pl l l.length none h

/-! ### Claim theorems -/

/-- Claim C1: the full pipeline (negative filtering, then formatting) on the
raw caption `This image shows a cat sitting on a mat.` with the filter
`this image shows`, prefix `TOK`, suffix `high quality` and no character
limit returns exactly `TOK, a cat sitting on a mat, high quality`. -/
theorem end_to_end_scenario :
    process "This image shows a cat sitting on a mat."
      ⟨"TOK", "high quality", none, ["this image shows"]⟩ =
      "TOK, a cat sitting on a mat, high quality" := by decide

/-- Claim C2: the batch loop emits exactly one pair per request in submission
order; a failing request yields the error marker with the failure message and
the loop continues; the filename is the basename plus `.txt` in both the
success and the failure case. -/
theorem batch_order_and_failure :
    ∀ (cfg : PostProcessConfig) (gen : CaptionRequest → Except String String)
      (reqs : List CaptionRequest),
      (runBatch cfg gen reqs).length = reqs.length ∧
      ∀ i, i < reqs.length →
        (runBatch cfg gen reqs).getD i ("", "") =
          (filenameOf (reqs.getD i ⟨"", ""⟩),
            match gen (reqs.getD i ⟨"", ""⟩) with
            | Except.ok text => process text cfg
            | Except.error e => "Error: " ++ e) :=
  fun cfg gen reqs =>
    ⟨runBatch_length cfg gen reqs, fun i h => runBatch_getD cfg gen reqs i h⟩

/-- Witness for C2: five requests with the third failing give five items in
order, the third being the error marker with its filename. -/
theorem batch_order_and_failure_witness :
    (runBatch ⟨"", "", none, []⟩ gen5 reqs5).length = 5 ∧
    (runBatch ⟨"", "", none, []⟩ gen5 reqs5).getD 2 ("", "") = ("img3.txt", "Error: boom") ∧
    (runBatch ⟨"", "", none, []⟩ gen5 reqs5).getD 0 ("", "") = ("img1.txt", "a cat") := by
  have h := batch_order_and_failure ⟨"", "", none, []⟩ gen5 reqs5
  refine ⟨by rw [h.1]; rfl, ?_, ?_⟩
  · rw [h.2 2 (by decide)]; decide
  · rw [h.2 0 (by decide)]; decide

/-- Counterexample to C3: the input is longer than `maxChars = 50` and the
last space of its trimmed hard cut sits at index exactly 40, exactly 80
percent of 50, so the claim prescribes the word-boundary cut at 40; the code
instead returns the 50-character hard cut, not the 40-character
word-boundary cut. -/
theorem truncation_exact_eighty_counterexample :
    50 < hardCutInput.data.length ∧
    lastIdxOf ' ' (jsTrim (hardCutInput.data.take 50)) = some 40 ∧
    formatCaption hardCutInput "" "" (some 50) =
      ⟨List.replicate 40 'a' ++ ' ' :: List.replicate 9 'b'⟩ ∧
    formatCaption hardCutInput "" "" (some 50) ≠ ⟨List.replicate 40 'a'⟩ :=
  ⟨by decide, by decide, by decide, by decide⟩

/-- Claim C3 amended: truncation hard-cuts to `maxChars` and trims, then
cuts again at the last space exactly when that index is strictly greater
than 80 percent of `maxChars`; at exactly 80 percent (or below) the hard cut
is kept.  With `maxChars = 50`, a last space at index 42 cuts at 42, while a
last space at index exactly 40 keeps the 50-character hard cut. -/
theorem truncation_word_boundary_amended :
    formatCaption wordCutInput "" "" (some 50) = ⟨List.replicate 42 'a'⟩ ∧
    formatCaption hardCutInput "" "" (some 50) =
      ⟨List.replicate 40 'a' ++ ' ' :: List.replicate 9 'b'⟩ ∧
    (∀ (l : List Char) (m i : Nat), lastIdxOf ' ' (jsTrim (l.take m)) = some i →
      5 * i ≤ 4 * m → truncateCaption m l = jsTrim (l.take m)) ∧
    ∀ (l : List Char) (m i : Nat), lastIdxOf ' ' (jsTrim (l.take m)) = some i →
      4 * m < 5 * i → truncateCaption m l = jsTrim ((jsTrim (l.take m)).take i) := by
  refine ⟨by decide, by decide, ?_, ?_⟩
  · intro l m i h hle
    have hred : truncateCaption m l =
        match lastIdxOf ' ' (jsTrim (l.take m)) with
        | none => jsTrim (l.take m)
        | some i => if 4 * m < 5 * i then jsTrim ((jsTrim (l.take m)).take i)
          else jsTrim (l.take m) := rfl
    rw [hred, h]
    exact if_neg (by omega)
  · intro l m i h hlt
    have hred : truncateCaption m l =
        match lastIdxOf ' ' (jsTrim (l.take m)) with
        | none => jsTrim (l.take m)
        | some i => if 4 * m < 5 * i then jsTrim ((jsTrim (l.take m)).take i)
          else jsTrim (l.take m) := rfl
    rw [hred, h]
    exact if_pos hlt

/-- Witness for the amended C3: the hard-cut direction at the input whose
trimmed hard cut has its last space at index exactly 40, and the
word-boundary direction at the input whose last space sits at index 42, both
with `maxChars = 50`. -/
theorem truncation_word_boundary_witness :
    truncateCaption 50 hardCutInput.data = jsTrim (hardCutInput.data.take 50) ∧
    truncateCaption 50 wordCutInput.data =
      jsTrim ((jsTrim (wordCutInput.data.take 50)).take 42) :=
  ⟨truncation_word_boundary_amended.2.2.1 hardCutInput.data 50 40 (by decide) (by decide),
   truncation_word_boundary_amended.2.2.2 wordCutInput.data 50 42 (by decide) (by decide)⟩

/-- Counterexample to C4: the pipeline with the empty configuration maps
`This is a Cat.\n\n` to `this is a Cat.` rather than to the claimed
`This is a cat` (the period survives because the trailing-period strip runs
before the newline collapse, and no final capitalization happens when the
filter list is empty). -/
theorem empty_config_counterexample :
    process "This is a Cat.\n\n" ⟨"", "", none, []⟩ ≠ "This is a cat" := by decide

/-- Claim C4 amended: with empty filters, prefix and suffix the pipeline is
lowercase-first, then strip one trailing period only when the period is the
final character of the raw string, then newline and whitespace collapse with
a trim; no final capitalization is applied, so the example input maps to
`this is a Cat.`. -/
theorem empty_config_reduction_amended :
    (∀ raw : String, process raw ⟨"", "", none, []⟩ = plainFormat raw) ∧
    process "This is a Cat.\n\n" ⟨"", "", none, []⟩ = "this is a Cat." :=
  ⟨process_plain, by decide⟩

/-- Counterexample to C5: the pipeline output for raw `cat` with the empty
configuration is non-empty and its first character is lowercase. -/
theorem capitalization_counterexample :
    ((process "cat" ⟨"", "", none, []⟩).data.head?.map Char.isUpper) = some false := by
  decide

/-- Claim C5 amended: capitalization is applied inside the negative-filtering
cleanup, not to the final composed string; the first character of the
filtering stage output is always fixed under uppercasing, while the final
pipeline output need not start with an uppercase character. -/
theorem capitalization_stage_amended :
    ∀ (caption : String) (filters : List String),
      ((applyNegativeFilters caption filters).data.head?).map Char.toUpper =
        (applyNegativeFilters caption filters).data.head? := by
  intro caption filters
  exact upperFirst_head_fixed _

/-- Counterexample to C6: when filtering or an empty raw caption leaves an
empty body and a suffix is configured, the output starts with an orphan
comma-space. -/
theorem orphan_separator_counterexample :
    (process "" ⟨"", "high quality", none, []⟩).data.take 2 = [',', ' '] := by decide

/-- Claim C6 amended: for the claimed instance (raw `a cat`, empty prefix,
suffix `high quality`) the output is `a cat, high quality`, contains no
`, , ` and does not start with `, `; but with an empty body and a configured
suffix the output does start with the orphan `, `. -/
theorem orphan_separator_amended :
    process "a cat" ⟨"", "high quality", none, []⟩ = "a cat, high quality" ∧
    containsSeq ", , ".data (process "a cat" ⟨"", "high quality", none, []⟩).data = false ∧
    (process "a cat" ⟨"", "high quality", none, []⟩).data.take 2 ≠ [',', ' '] ∧
    process "" ⟨"", "high quality", none, []⟩ = ", high quality" :=
  ⟨by decide, by decide, by decide, by decide⟩

/-- Claim C7: phrase filtering removes case-insensitive whole-word
occurrences of the literal phrase and nothing else: the example removes
`there is a ` while leaving `thereafter` intact (the cleanup then capitalizes
the first letter), and a text with no word-boundary occurrence of the phrase
is returned unchanged by the removal pass. -/
theorem phrase_filter_whole_word :
    applyNegativeFilters "there is a cat, thereafter" ["there is a"] = "Cat, thereafter" ∧
    ∀ (p l : String), hasPhraseOcc p.data none l.data = false →
      removePhrase p.data l.data = l.data := by
  refine ⟨by decide, ?_⟩
  intro p l h
  exact removePhrase_eq_of_no_occ p.data l.data h

/-- Witness for C7: `thereafter went there` holds no word-boundary occurrence
of `there is a`, and the removal pass leaves it unchanged. -/
theorem phrase_filter_whole_word_witness :
    removePhrase "there is a".data "thereafter went there".data =
      "thereafter went there".data ∧
    hasPhraseOcc "there is a".data none "thereafter went there".data = false :=
  ⟨phrase_filter_whole_word.2 "there is a" "thereafter went there" (by decide), by decide⟩

/-- Counterexample to C8: with an empty filter list the pipeline performs no
comma collapsing at all, so `a,,b` keeps its double comma. -/
theorem comma_collapse_counterexample :
    (process "a,,b" ⟨"", "", none, []⟩).data = ['a', ',', ',', 'b'] := by decide

/-- Claim C8 amended: comma collapsing happens only inside the
negative-filtering cleanup (thus only when the filter list is non-empty),
and that cleanup replaces comma pairs left to right in a single pass, so
`,,` becomes `,` but `,,,` becomes `,,`; with empty filters the comma count
of the pipeline output equals that of the raw caption. -/
theorem comma_collapse_amended :
    applyNegativeFilters "a,,b" ["x"] = "A,b" ∧
    applyNegativeFilters "a,,,b" ["x"] = "A,,b" ∧
    ∀ raw : String,
      ((process raw ⟨"", "", none, []⟩).data).count ',' = raw.data.count ',' := by
  refine ⟨by decide, by decide, ?_⟩
  intro raw
  rw [process_plain]
  show (jsTrim (collapseWsAux false (replaceNewlines
    (stripTrailingPeriod (lowerFirst raw.data))))).count ',' = _
  rw [count_comma_jsTrim, count_comma_collapseWsAux, count_comma_replaceNewlines,
    count_comma_stripTrailingPeriod, count_comma_lowerFirst]

/-- Claim C9: for every raw caption and configuration the pipeline output
contains no newline and no two adjacent spaces, and when a positive
`maxChars` is set the output length is at most `maxChars`. -/
theorem pipeline_output_invariants (raw : String) (cfg : PostProcessConfig) :
    '\n' ∉ (process raw cfg).data ∧
    noDoubleSpace (process raw cfg).data ∧
    ∀ m : Nat, cfg.maxChars = some m → 0 < m → (process raw cfg).data.length ≤ m :=
  ⟨newline_not_mem (process_invariants raw cfg).1,
   (process_invariants raw cfg).2,
   fun m h hm => process_length_le raw cfg m h hm⟩

/-- Witness for C9 at a concrete raw caption and a limit of 5 characters. -/
theorem pipeline_output_invariants_witness :
    '\n' ∉ (process "a\n\nb   c" ⟨"", "", some 5, []⟩).data ∧
    (process "a\n\nb   c" ⟨"", "", some 5, []⟩).data.length ≤ 5 := by
  have h := pipeline_output_invariants "a\n\nb   c" ⟨"", "", some 5, []⟩
  exact ⟨h.1, h.2.2 5 rfl (by decide)⟩

/-- Claim C10: failures and successes share the caption channel.  A failed
request emits `Error: ` plus the message verbatim, with no filtering,
composition or truncation; a successful caption formatted with prefix
`Error: hello` equals the marker for message `hello, body`; and the stream
consumer classifies that successful caption as a failure and stops. -/
theorem error_channel_collision :
    runBatch ⟨"p", "", some 3, ["x"]⟩ (fun _ => Except.error "boom") [⟨"img.png", ""⟩] =
      [("img.txt", "Error: boom")] ∧
    formatCaption "body" "Error: hello" "" none = "Error: hello, body" ∧
    "Error: " ++ "hello, body" = formatCaption "body" "Error: hello" "" none ∧
    consumeCaptions [("a.txt", "Nice"), ("b.txt", formatCaption "body" "Error: hello" "" none),
      ("c.txt", "After")] = ([("a.txt", "Nice")], some "hello, body") :=
  ⟨by decide, by decide, by decide, by decide⟩

end GptImg
